import Mathlib

/-!
Shallow embedding of `src/app.py` (MEDLINE author/email extractor).

Strings are modelled as `List Char`.  Python's whitespace handling is
modelled over the ASCII whitespace characters (space, tab, newline,
carriage return, vertical tab, form feed); unicode whitespace is outside
the modelled character set.  Fallible operations (list indexing that can
raise `IndexError` in Python) return `Option`, and the parser propagates
the failure, so that "the parser never raises" is a provable statement.
-/

/-- Python whitespace (ASCII subset): the characters stripped by `str.strip()`
and matched by the regex class `\s`. -/
def pyIsSpace (c : Char) : Bool :=
  c = ' ' || c = '\t' || c = '\n' || c = '\r' || c = '\x0b' || c = '\x0c'

/-- Python `str.strip()`: remove leading and trailing whitespace. -/
def pyStrip (cs : List Char) : List Char :=
  ((cs.dropWhile pyIsSpace).reverse.dropWhile pyIsSpace).reverse

/-- Worker for `pySplit1` (Python `s.split(sep, 1)`): accumulate until the
first occurrence of `sep`; at most one split. -/
def split1Go (sep : Char) : List Char → List Char → List (List Char)
  | [], acc => [acc.reverse]
  | c :: cs, acc => if c = sep then [acc.reverse, cs] else split1Go sep cs (c :: acc)

/-- Python `s.split(sep, 1)`: `[before, after]` at the first `sep`, or `[s]`
when `sep` does not occur. -/
def pySplit1 (sep : Char) (s : List Char) : List (List Char) :=
  split1Go sep s []

/-- `line.split('-', 1)[1].strip()` from the source.  The `[1]` indexing
raises `IndexError` in Python when the split produced a single part
(no `'-'` in the line); that failure is modelled as `none`. -/
def afterDashStrip (line : List Char) : Option (List Char) :=
  match pySplit1 '-' line with
  | _ :: v :: _ => some (pyStrip v)
  | _ => none

/-- The tag literals used by the source's `startswith` checks. -/
def pmidT : List Char := ['P', 'M', 'I', 'D', '-']

def tiT : List Char := ['T', 'I', ' ', ' ', '-']

def fauT : List Char := ['F', 'A', 'U', ' ', '-']

def adT : List Char := ['A', 'D', ' ', ' ', '-']

/-- Line-break characters of Python `str.splitlines()` (ASCII subset). -/
def isLineBreak (c : Char) : Bool :=
  c = '\n' || c = '\r' || c = '\x0b' || c = '\x0c'

/-- Worker for `pySplitlines` (a `\r\n` pair counts as one break, a break at
the very end of the text opens no further line). -/
def slGo : List Char → List Char → List (List Char)
  | [], acc => [acc.reverse]
  | [c], acc => if isLineBreak c then [acc.reverse] else [(c :: acc).reverse]
  | c1 :: c2 :: cs, acc =>
    if c1 = '\r' && c2 = '\n' then
      acc.reverse :: (if cs.isEmpty then [] else slGo cs [])
    else if isLineBreak c1 then acc.reverse :: slGo (c2 :: cs) []
    else slGo (c2 :: cs) (c1 :: acc)

/-- Python `str.splitlines()` (ASCII line boundaries, `\r\n` counted once,
no trailing empty line, empty string gives no lines). -/
def pySplitlines (cs : List Char) : List (List Char) :=
  if cs.isEmpty then [] else slGo cs []

/-- The record-boundary test of `re.split(r'\n(?=PMID-\s)', ...)`: a suffix
of the text starts a split exactly when it begins with a newline followed
by `PMID-` and one further whitespace character. -/
def isSplitPoint (cs : List Char) : Bool :=
  match cs with
  | c0 :: rest => c0 = '\n' && pmidT.isPrefixOf rest && pyIsSpace (rest.getD 5 'x')
  | [] => false

/-- Worker for `splitPMID`: scan left to right, cutting at each split point
(the separator `\n` is consumed, the lookahead is not). -/
def splitPMIDAux : List Char → List Char → List (List Char)
  | [], acc => [acc.reverse]
  | c :: cs, acc =>
    if isSplitPoint (c :: cs) then acc.reverse :: splitPMIDAux cs []
    else splitPMIDAux cs (c :: acc)

/-- `re.split(r'\n(?=PMID-\s)', text)` from the source. -/
def splitPMID (cs : List Char) : List (List Char) :=
  splitPMIDAux cs []

/-- Rejoin chunks with the newline the splitter consumed; used to state that
splitting only cuts at line starts. -/
def glueNL : List (List Char) → List Char
  | [] => []
  | [c] => c
  | c :: d :: r => c ++ '\n' :: glueNL (d :: r)

/-! ### The email regex `[A-Za-z0-9._%+\-]+@[A-Za-z0-9.\-]+\.[A-Za-z]{2,}` -/

/-- Character class `[A-Za-z0-9._%+\-]` (local part). -/
def isLocalChar (c : Char) : Bool :=
  c.isAlpha || c.isDigit || c = '.' || c = '_' || c = '%' || c = '+' || c = '-'

/-- Character class `[A-Za-z0-9.\-]` (domain part). -/
def isDomChar (c : Char) : Bool :=
  c.isAlpha || c.isDigit || c = '.' || c = '-'

/-- Match `\.[A-Za-z]{2,}` at the head of the input; returns the matched
length.  The trailing `{2,}` is greedy and nothing follows it, so it takes
the maximal run of letters. -/
def matchDotTld : List Char → Option Nat
  | [] => none
  | c :: rest =>
    if c = '.' then
      if 2 ≤ (rest.takeWhile Char.isAlpha).length then
        some (1 + (rest.takeWhile Char.isAlpha).length)
      else none
    else none

/-- Backtracking of the greedy `[A-Za-z0-9.\-]+`: try domain lengths
`q, q-1, ..., 1` (longest first, as the regex engine does) and continue
with `\.[A-Za-z]{2,}`. -/
def tryDomain (cs : List Char) : Nat → Option Nat
  | 0 => none
  | q + 1 =>
    match matchDotTld (cs.drop (q + 1)) with
    | some m => some (q + 1 + m)
    | none => tryDomain cs q

/-- Match `[A-Za-z0-9.\-]+\.[A-Za-z]{2,}` at the head of the input; returns
the matched length.  The greedy `+` first takes the maximal run of domain
characters, then backtracks. -/
def matchDomainLen (cs : List Char) : Option Nat :=
  tryDomain cs (cs.takeWhile isDomChar).length

/-- Match the whole email pattern anchored at the head of the input,
returning the matched substring.  The local-part `+` is greedy; since `@`
is not a local character, no backtracking of the local part can help. -/
def matchEmailAt (cs : List Char) : Option (List Char) :=
  if (cs.takeWhile isLocalChar).isEmpty then none
  else
    match cs.dropWhile isLocalChar with
    | [] => none
    | a :: rest2 =>
      if a = '@' then
        match matchDomainLen rest2 with
        | some m => some (cs.takeWhile isLocalChar ++ a :: rest2.take m)
        | none => none
      else none

/-- `EMAIL_RX.search(text)` followed by `m.group(0)`: try the pattern at
every start position, left to right; first success wins. -/
def searchEmail : List Char → Option (List Char)
  | [] => none
  | c :: cs =>
    match matchEmailAt (c :: cs) with
    | some e => some e
    | none => searchEmail cs

/-- The declarative shape of an email match, written from the regex:
a nonempty local part, `@`, a nonempty domain part, a dot, and a top-level
segment of at least two letters. -/
def isEmailShape (w : List Char) : Prop :=
  ∃ l d t, w = l ++ '@' :: (d ++ '.' :: t) ∧ l ≠ [] ∧
    (∀ c ∈ l, isLocalChar c = true) ∧ d ≠ [] ∧
    (∀ c ∈ d, isDomChar c = true) ∧ 2 ≤ t.length ∧
    (∀ c ∈ t, c.isAlpha = true)

/-! ### The record parser -/

/-- One extracted record (`{'PMID': ..., 'Title': ..., 'Author': ..., 'Email': ...}`).
`pmid`/`title` start as Python `None`, hence `Option`. -/
structure Row where
  pmid : Option (List Char)
  title : Option (List Char)
  author : List Char
  email : List Char
deriving DecidableEq, Repr

/-- `line.startswith('PMID-')`. -/
def fP (l : List Char) : Bool := pmidT.isPrefixOf l

/-- `line.startswith('TI  -')`. -/
def fT (l : List Char) : Bool := tiT.isPrefixOf l

/-- `line.startswith('FAU -')`. -/
def fFAU (l : List Char) : Bool := fauT.isPrefixOf l

/-- `line.startswith('AD  -')`. -/
def fAD (l : List Char) : Bool := adT.isPrefixOf l

/-- `line.startswith(' ')`: a continuation line of an `AD` block. -/
def contLine (l : List Char) : Bool := [' '].isPrefixOf l

/-- `' '.join(parts)`. -/
def joinSpace : List (List Char) → List Char
  | [] => []
  | [x] => x
  | x :: y :: xs => x ++ ' ' :: joinSpace (y :: xs)

/-- The first loop of `parse_medline_text` (lines 25-29 of the source):
scan every line; a `PMID-` line reassigns `pmid`, otherwise a `TI  -` line
reassigns `title`. -/
def headerPass : List (List Char) → Option (List Char) → Option (List Char) →
    Option (Option (List Char) × Option (List Char))
  | [], pm, ti => some (pm, ti)
  | line :: rest, pm, ti =>
    if fP line then
      match afterDashStrip line with
      | some v => headerPass rest (some v) ti
      | none => none
    else if fT line then
      match afterDashStrip line with
      | some v => headerPass rest pm (some v)
      | none => none
    else headerPass rest pm ti

/-- The inner `while j < len(lines)` loop (lines 39-53 of the source): scan
forward for the next `AD  -` line; on an `AD` line collect it with its
following `startswith(' ')` continuation lines, on a `FAU -` line or end of
record stop with no affiliation.  Inner `none` = no affiliation block,
outer `none` = the (unreachable) `IndexError` of the split indexing. -/
def findAff : List (List Char) → Option (Option (List Char))
  | [] => some none
  | line :: rest =>
    if fAD line then
      match afterDashStrip line with
      | some v => some (some (joinSpace (v :: (rest.takeWhile contLine).map pyStrip)))
      | none => none
    else if fFAU line then some none
    else findAff rest

/-- The `email` variable of the source: `''` when no affiliation block was
found, otherwise the regex match on the block (still `''` when no match). -/
def emailOf : Option (List Char) → List Char
  | some aff => (searchEmail aff).getD []
  | none => []

/-- The outer `while i < len(lines)` loop (lines 32-62 of the source): on
each `FAU -` line extract the author, find its affiliation block, search it
for an email, and append a row only when the email is nonempty. -/
def authorPass (pm ti : Option (List Char)) : List (List Char) → Option (List Row)
  | [] => some []
  | line :: rest =>
    if fFAU line then
      match afterDashStrip line with
      | none => none
      | some author =>
        match findAff rest with
        | none => none
        | some affOpt =>
          match authorPass pm ti rest with
          | none => none
          | some tailRows =>
            some (if (emailOf affOpt).isEmpty then tailRows
                  else ⟨pm, ti, author, emailOf affOpt⟩ :: tailRows)
    else authorPass pm ti rest

/-- Parse one chunk: split into lines, run the header pass, then the
author/affiliation pass. -/
def parseChunk (chunk : List Char) : Option (List Row) :=
  match headerPass (pySplitlines chunk) none none with
  | none => none
  | some (pm, ti) => authorPass pm ti (pySplitlines chunk)

/-- Accumulate the records of all chunks, in order. -/
def parseChunks : List (List Char) → Option (List Row)
  | [] => some []
  | c :: cs =>
    match parseChunk c with
    | none => none
    | some rs =>
      match parseChunks cs with
      | none => none
      | some rest => some (rs ++ rest)

/-- `parse_medline_text` (lines 10-64 of the source): strip the input,
split it into records at `\n(?=PMID-\s)`, and parse each record. -/
def parse_medline_text (text : List Char) : Option (List Row) :=
  parseChunks (splitPMID (pyStrip text))

/-- The row list of one source text (defaulting the unreachable failure). -/
def parseRows (text : List Char) : List Row :=
  (parse_medline_text text).getD []

/-- The dedup key of `drop_duplicates(subset=['PMID', 'Author', 'Email'])`. -/
def rowKey (r : Row) : Option (List Char) × List Char × List Char :=
  (r.pmid, r.author, r.email)

/-- Worker for `drop_duplicates`: keep a row only when its key was not seen
before (pandas `keep='first'`). -/
def dedupGo (seen : List (Option (List Char) × List Char × List Char)) :
    List Row → List Row
  | [] => []
  | r :: rs =>
    if rowKey r ∈ seen then dedupGo seen rs
    else r :: dedupGo (rowKey r :: seen) rs

/-- `df.drop_duplicates(subset=['PMID', 'Author', 'Email'])` (line 80 of the
source): first occurrence of each key wins, order preserved. -/
def drop_duplicates (l : List Row) : List Row := dedupGo [] l

/-- The two outcomes of the app after parsing all files (lines 78-120 of the
source): a result table, or the "No authors with emails were found" warning. -/
inductive Outcome where
  | noRowsFound
  | table (rows : List Row)
deriving DecidableEq, Repr

/-- The accumulation loop over the uploaded files:
`all_records.extend(parse_medline_text(raw_text))`. -/
def runAppAcc : List (List Char) → Option (List Row)
  | [] => some []
  | f :: fs =>
    match parse_medline_text f with
    | none => none
    | some rs =>
      match runAppAcc fs with
      | none => none
      | some rest => some (rs ++ rest)

/-- The full pipeline over a list of decoded file texts: accumulate, then
either report the deduplicated table or the "nothing found" condition. -/
def runApp (files : List (List Char)) : Option Outcome :=
  match runAppAcc files with
  | none => none
  | some all =>
    some (if all.isEmpty then Outcome.noRowsFound
          else Outcome.table (drop_duplicates all))

/-- The accumulated row sequence across all files, upload order then
in-file discovery order. -/
def allRows (files : List (List Char)) : List Row :=
  (files.map parseRows).flatten

/-- The affiliation text built from an `AD  -` line and the lines after it
(the tag value, then the trimmed continuation lines, joined by spaces). -/
def affTextOf (l : List Char) (post : List (List Char)) : Option (List Char) :=
  (afterDashStrip l).map (fun v => joinSpace (v :: (post.takeWhile contLine).map pyStrip))

/-! ### Totality of the parser -/

lemma split1Go_of_mem (sep : Char) :
    ∀ (s acc : List Char), sep ∈ s → ∃ a b, split1Go sep s acc = [a, b] := by
  intro s
  induction s with
  | nil => intro acc h; cases h
  | cons c cs ih =>
    intro acc h
    by_cases hc : c = sep
    · exact ⟨acc.reverse, cs, by simp [split1Go, hc]⟩
    · have hm : sep ∈ cs := by
        rcases List.mem_cons.mp h with h1 | h1
        · exact absurd h1.symm hc
        · exact h1
      rcases ih (c :: acc) hm with ⟨a, b, hab⟩
      exact ⟨a, b, by simp [split1Go, hc, hab]⟩

lemma afterDashStrip_of_mem {line : List Char} (h : '-' ∈ line) :
    ∃ v, afterDashStrip line = some v := by
  rcases split1Go_of_mem '-' line [] h with ⟨a, b, hab⟩
  exact ⟨pyStrip b, by simp [afterDashStrip, pySplit1, hab]⟩

lemma mem_of_isPrefixOf {l₁ l₂ : List Char} {a : Char}
    (h : l₁.isPrefixOf l₂ = true) (ha : a ∈ l₁) : a ∈ l₂ := by
  rcases List.isPrefixOf_iff_prefix.mp h with ⟨t, rfl⟩
  exact List.mem_append_left t ha

lemma tagDash {tag line : List Char} (h : tag.isPrefixOf line = true)
    (hd : '-' ∈ tag) : ∃ v, afterDashStrip line = some v :=
  afterDashStrip_of_mem (mem_of_isPrefixOf h hd)

lemma fP_dash {line : List Char} (h : fP line = true) :
    ∃ v, afterDashStrip line = some v := tagDash h (by decide)

lemma fT_dash {line : List Char} (h : fT line = true) :
    ∃ v, afterDashStrip line = some v := tagDash h (by decide)

lemma fFAU_dash {line : List Char} (h : fFAU line = true) :
    ∃ v, afterDashStrip line = some v := tagDash h (by decide)

lemma fAD_dash {line : List Char} (h : fAD line = true) :
    ∃ v, afterDashStrip line = some v := tagDash h (by decide)

lemma headerPass_isSome :
    ∀ (lines : List (List Char)) (pm ti : Option (List Char)),
      ∃ x, headerPass lines pm ti = some x := by
  intro lines
  induction lines with
  | nil => intro pm ti; exact ⟨(pm, ti), rfl⟩
  | cons line rest ih =>
    intro pm ti
    by_cases hp : fP line
    · rcases fP_dash hp with ⟨v, hv⟩
      rcases ih (some v) ti with ⟨x, hx⟩
      exact ⟨x, by simp [headerPass, hp, hv, hx]⟩
    · by_cases ht : fT line
      · rcases fT_dash ht with ⟨v, hv⟩
        rcases ih pm (some v) with ⟨x, hx⟩
        exact ⟨x, by simp [headerPass, hp, ht, hv, hx]⟩
      · rcases ih pm ti with ⟨x, hx⟩
        exact ⟨x, by simp [headerPass, hp, ht, hx]⟩

lemma findAff_isSome :
    ∀ (lines : List (List Char)), (findAff lines).isSome = true := by
  intro lines
  induction lines with
  | nil => rfl
  | cons line rest ih =>
    by_cases ha : fAD line
    · rcases fAD_dash ha with ⟨v, hv⟩
      simp [findAff, ha, hv]
    · by_cases hf : fFAU line
      · simp [findAff, ha, hf]
      · simpa [findAff, ha, hf] using ih

lemma authorPass_isSome (pm ti : Option (List Char)) :
    ∀ (lines : List (List Char)), (authorPass pm ti lines).isSome = true := by
  intro lines
  induction lines with
  | nil => rfl
  | cons line rest ih =>
    by_cases hf : fFAU line
    · rcases fFAU_dash hf with ⟨v, hv⟩
      rcases Option.isSome_iff_exists.mp (findAff_isSome rest) with ⟨aff, haff⟩
      rcases Option.isSome_iff_exists.mp ih with ⟨tl, htl⟩
      simp [authorPass, hf, hv, haff, htl]
    · simpa [authorPass, hf] using ih

lemma parseChunk_isSome (chunk : List Char) :
    (parseChunk chunk).isSome = true := by
  rcases headerPass_isSome (pySplitlines chunk) none none with ⟨⟨pm, ti⟩, hh⟩
  have := authorPass_isSome pm ti (pySplitlines chunk)
  rcases Option.isSome_iff_exists.mp this with ⟨x, hx⟩
  simp [parseChunk, hh, hx]

lemma parseChunks_isSome :
    ∀ (cs : List (List Char)), (parseChunks cs).isSome = true := by
  intro cs
  induction cs with
  | nil => rfl
  | cons c rest ih =>
    rcases Option.isSome_iff_exists.mp (parseChunk_isSome c) with ⟨r, hr⟩
    rcases Option.isSome_iff_exists.mp ih with ⟨x, hx⟩
    simp [parseChunks, hr, hx]

lemma parse_isSome (text : List Char) :
    ∃ rs, parse_medline_text text = some rs :=
  Option.isSome_iff_exists.mp (parseChunks_isSome (splitPMID (pyStrip text)))

lemma parseRows_eq {text : List Char} {rs : List Row}
    (h : parse_medline_text text = some rs) : parseRows text = rs := by
  simp [parseRows, h]

lemma runAppAcc_eq : ∀ (files : List (List Char)),
    runAppAcc files = some (allRows files) := by
  intro files
  induction files with
  | nil => simp [runAppAcc, allRows]
  | cons f fs ih =>
    rcases parse_isSome f with ⟨rs, hrs⟩
    simp [runAppAcc, hrs, ih, allRows, parseRows_eq hrs]

lemma runApp_eq (files : List (List Char)) :
    runApp files = some (if (allRows files).isEmpty then Outcome.noRowsFound
      else Outcome.table (drop_duplicates (allRows files))) := by
  simp [runApp, runAppAcc_eq files]

/-- C7: the parser is a total function.  Every fallible `split('-',1)[1]`
indexing is guarded by a `startswith` check whose tag contains `'-'`, so the
out-of-bounds (`none`) branch is unreachable and parsing never fails, for
every input string. -/
theorem C7_parser_total (text : List Char) : (parse_medline_text text).isSome = true :=
  parseChunks_isSome (splitPMID (pyStrip text))

/-- C9: empty input text, and more generally any collection of inputs in
which no rows are produced, yields the distinct "no rows found" outcome
(the `st.warning` branch), not a failure. -/
theorem C9_empty_input (files : List (List Char)) (h : ∀ f ∈ files, parseRows f = []) :
    parseRows [] = [] ∧ runApp files = some Outcome.noRowsFound := by
  refine ⟨by decide, ?_⟩
  have hall : allRows files = [] := by
    simp only [allRows, List.flatten_eq_nil_iff]
    intro l hl
    rcases List.mem_map.mp hl with ⟨f, hf, rfl⟩
    exact h f hf
  rw [runApp_eq files, hall]
  rfl

/-- Witness for C9 at the concrete input of one empty file. -/
theorem C9_witness : parseRows [] = [] ∧ runApp [[]] = some Outcome.noRowsFound :=
  C9_empty_input [[]] (by decide)

/-! ### Rows always carry a nonempty email (C4) -/

lemma authorPass_email_ne (pm ti : Option (List Char)) :
    ∀ (lines : List (List Char)) (rows : List Row),
      authorPass pm ti lines = some rows → ∀ r ∈ rows, r.email ≠ [] := by
  intro lines
  induction lines with
  | nil =>
    intro rows h r hr
    simp [authorPass] at h
    subst h
    cases hr
  | cons line rest ih =>
    intro rows h r hr
    by_cases hf : fFAU line
    · rcases fFAU_dash hf with ⟨v, hv⟩
      rcases Option.isSome_iff_exists.mp (findAff_isSome rest) with ⟨aff, haff⟩
      rcases Option.isSome_iff_exists.mp (authorPass_isSome pm ti rest) with ⟨tl, htl⟩
      simp only [authorPass, hf, if_true, hv, haff, htl, Option.some.injEq] at h
      subst h
      by_cases hemp : (emailOf aff).isEmpty = true
      · rw [if_pos hemp] at hr
        exact ih tl htl r hr
      · rw [if_neg hemp] at hr
        rcases List.mem_cons.mp hr with rfl | hr2
        · intro hnil
          exact hemp (by simp only [Row.email] at hnil; rw [hnil]; rfl)
        · exact ih tl htl r hr2
    · simp only [authorPass, hf, if_false] at h
      exact ih rows h r hr

lemma parseChunk_email {chunk : List Char} {rows : List Row}
    (h : parseChunk chunk = some rows) : ∀ r ∈ rows, r.email ≠ [] := by
  rcases headerPass_isSome (pySplitlines chunk) none none with ⟨⟨pm, ti⟩, hh⟩
  rw [parseChunk, hh] at h
  exact authorPass_email_ne pm ti _ rows h

lemma parseChunks_email :
    ∀ (cs : List (List Char)) (rows : List Row),
      parseChunks cs = some rows → ∀ r ∈ rows, r.email ≠ [] := by
  intro cs
  induction cs with
  | nil =>
    intro rows h r hr
    simp [parseChunks] at h
    subst h
    cases hr
  | cons c rest ih =>
    intro rows h r hr
    rcases Option.isSome_iff_exists.mp (parseChunk_isSome c) with ⟨rs, hrs⟩
    rcases Option.isSome_iff_exists.mp (parseChunks_isSome rest) with ⟨x, hx⟩
    rw [parseChunks, hrs, hx] at h
    injection h with h3
    subst h3
    rcases List.mem_append.mp hr with hr1 | hr1
    · exact parseChunk_email hrs r hr1
    · exact ih x hx r hr1

/-- C4: every row of the parse of any input has a nonempty email; an author
entry whose affiliation yields no email match never produces a row. -/
theorem C4_email_nonempty (text : List Char) (r : Row)
    (hr : r ∈ parseRows text) : r.email ≠ [] := by
  rcases parse_isSome text with ⟨rs, hrs⟩
  rw [parseRows_eq hrs] at hr
  exact parseChunks_email _ rs hrs r hr

/-- Witness for C4 at the spec's Scenario A input. -/
theorem C4_witness :
    (⟨some ['1'], some ['T', '1'], "Smith J".toList, "jsmith@uni.edu".toList⟩ : Row) ∈
        parseRows "PMID- 1\nTI  - T1\nFAU - Smith J\nAD  - Dept of X. jsmith@uni.edu".toList ∧
      (⟨some ['1'], some ['T', '1'], "Smith J".toList, "jsmith@uni.edu".toList⟩ : Row).email ≠ [] :=
  ⟨by decide,
    C4_email_nonempty
      "PMID- 1\nTI  - T1\nFAU - Smith J\nAD  - Dept of X. jsmith@uni.edu".toList
      ⟨some ['1'], some ['T', '1'], "Smith J".toList, "jsmith@uni.edu".toList⟩ (by decide)⟩

/-! ### Deduplication (C3) -/

lemma dedupGo_sublist :
    ∀ (seen : List (Option (List Char) × List Char × List Char)) (l : List Row),
      (dedupGo seen l).Sublist l := by
  intro seen l
  induction l generalizing seen with
  | nil => simp [dedupGo]
  | cons r rs ih =>
    by_cases hk : rowKey r ∈ seen
    · simpa [dedupGo, hk] using (ih seen).cons r
    · simpa [dedupGo, hk] using (ih (rowKey r :: seen)).cons₂ r

lemma dedupGo_not_seen :
    ∀ (seen : List (Option (List Char) × List Char × List Char)) (l : List Row)
      (r : Row), r ∈ dedupGo seen l → rowKey r ∉ seen := by
  intro seen l
  induction l generalizing seen with
  | nil => intro r hr; cases hr
  | cons x rs ih =>
    intro r hr
    by_cases hk : rowKey x ∈ seen
    · rw [dedupGo, if_pos hk] at hr
      exact ih seen r hr
    · rw [dedupGo, if_neg hk] at hr
      rcases List.mem_cons.mp hr with rfl | hr2
      · exact hk
      · intro hs
        exact ih (rowKey x :: seen) r hr2 (List.mem_cons_of_mem _ hs)

lemma dedupGo_nodup :
    ∀ (seen : List (Option (List Char) × List Char × List Char)) (l : List Row),
      ((dedupGo seen l).map rowKey).Nodup := by
  intro seen l
  induction l generalizing seen with
  | nil => simp [dedupGo]
  | cons r rs ih =>
    by_cases hk : rowKey r ∈ seen
    · simpa [dedupGo, hk] using ih seen
    · rw [dedupGo, if_neg hk]
      refine List.nodup_cons.mpr ⟨?_, ih (rowKey r :: seen)⟩
      intro hmem
      rcases List.mem_map.mp hmem with ⟨x, hx, hkey⟩
      exact dedupGo_not_seen _ _ x hx (hkey ▸ List.mem_cons_self _ _)

lemma dedupGo_complete :
    ∀ (seen : List (Option (List Char) × List Char × List Char)) (l : List Row)
      (x : Row), x ∈ l →
      rowKey x ∈ seen ∨ ∃ r ∈ dedupGo seen l, rowKey r = rowKey x := by
  intro seen l
  induction l generalizing seen with
  | nil => intro x hx; cases hx
  | cons y rs ih =>
    intro x hx
    by_cases hk : rowKey y ∈ seen
    · rw [dedupGo, if_pos hk]
      rcases List.mem_cons.mp hx with rfl | hx2
      · exact Or.inl hk
      · exact ih seen x hx2
    · rw [dedupGo, if_neg hk]
      rcases List.mem_cons.mp hx with rfl | hx2
      · exact Or.inr ⟨x, List.mem_cons_self _ _, rfl⟩
      · rcases ih (rowKey y :: seen) x hx2 with hs | ⟨r, hr, hkey⟩
        · rcases List.mem_cons.mp hs with heq | hs2
          · exact Or.inr ⟨y, List.mem_cons_self _ _, heq.symm⟩
          · exact Or.inl hs2
        · exact Or.inr ⟨r, List.mem_cons_of_mem _ hr, hkey⟩

lemma dedupGo_first :
    ∀ (seen : List (Option (List Char) × List Char × List Char)) (l : List Row)
      (r : Row), r ∈ dedupGo seen l →
      ∃ pre post, l = pre ++ r :: post ∧ ∀ x ∈ pre, rowKey x ≠ rowKey r := by
  intro seen l
  induction l generalizing seen with
  | nil => intro r hr; cases hr
  | cons y rs ih =>
    intro r hr
    by_cases hk : rowKey y ∈ seen
    · rw [dedupGo, if_pos hk] at hr
      rcases ih seen r hr with ⟨pre, post, heq, hpre⟩
      refine ⟨y :: pre, post, by rw [heq]; rfl, ?_⟩
      intro x hx
      rcases List.mem_cons.mp hx with rfl | hx2
      · intro hcon
        exact dedupGo_not_seen seen rs r hr (hcon ▸ hk)
      · exact hpre x hx2
    · rw [dedupGo, if_neg hk] at hr
      rcases List.mem_cons.mp hr with rfl | hr2
      · exact ⟨[], rs, rfl, by intro x hx; cases hx⟩
      · rcases ih (rowKey y :: seen) r hr2 with ⟨pre, post, heq, hpre⟩
        refine ⟨y :: pre, post, by rw [heq]; rfl, ?_⟩
        intro x hx
        rcases List.mem_cons.mp hx with rfl | hx2
        · intro hcon
          exact dedupGo_not_seen _ rs r hr2 (hcon ▸ List.mem_cons_self _ _)
        · exact hpre x hx2

/-- C3: the final table has no two rows sharing a (pmid, author, email)
triple; it is a subsequence of the accumulated row sequence (order
preserved), every accumulated key is represented, and each kept row is the
first occurrence of its key. -/
theorem C3_dedup_invariant (files : List (List Char)) (rows : List Row)
    (h : runApp files = some (Outcome.table rows)) :
    ((rows.map rowKey).Nodup ∧ rows.Sublist (allRows files)) ∧
      (∀ x ∈ allRows files, ∃ r ∈ rows, rowKey r = rowKey x) ∧
      (∀ r ∈ rows, ∃ pre post, allRows files = pre ++ r :: post ∧
        ∀ x ∈ pre, rowKey x ≠ rowKey r) := by
  rw [runApp_eq files] at h
  by_cases he : (allRows files).isEmpty = true
  · rw [if_pos he] at h
    cases h
  · rw [if_neg he] at h
    injection h with h2
    have hrows : rows = dedupGo [] (allRows files) := by
      have := h2.symm
      simpa [drop_duplicates] using this
    subst hrows
    refine ⟨⟨dedupGo_nodup [] _, dedupGo_sublist [] _⟩, ?_, ?_⟩
    · intro x hx
      rcases dedupGo_complete [] (allRows files) x hx with hs | hok
      · cases hs
      · exact hok
    · intro r hr
      exact dedupGo_first [] _ r hr

/-- Witness for C3: the same single-record file uploaded twice (the spec's
Scenario D) yields one row whose key occurs first at position zero. -/
theorem C3_witness :
    (([⟨some ['1'], some ['T', '1'], "Smith J".toList, "a@b.com".toList⟩].map rowKey).Nodup ∧
        List.Sublist [⟨some ['1'], some ['T', '1'], "Smith J".toList, "a@b.com".toList⟩]
          (allRows ["PMID- 1\nTI  - T1\nFAU - Smith J\nAD  - a@b.com".toList,
            "PMID- 1\nTI  - T1\nFAU - Smith J\nAD  - a@b.com".toList])) ∧
      (∀ x ∈ allRows ["PMID- 1\nTI  - T1\nFAU - Smith J\nAD  - a@b.com".toList,
          "PMID- 1\nTI  - T1\nFAU - Smith J\nAD  - a@b.com".toList],
        ∃ r ∈ [(⟨some ['1'], some ['T', '1'], "Smith J".toList, "a@b.com".toList⟩ : Row)],
          rowKey r = rowKey x) ∧
      (∀ r ∈ [(⟨some ['1'], some ['T', '1'], "Smith J".toList, "a@b.com".toList⟩ : Row)],
        ∃ pre post,
          allRows ["PMID- 1\nTI  - T1\nFAU - Smith J\nAD  - a@b.com".toList,
            "PMID- 1\nTI  - T1\nFAU - Smith J\nAD  - a@b.com".toList] = pre ++ r :: post ∧
          ∀ x ∈ pre, rowKey x ≠ rowKey r) :=
  C3_dedup_invariant
    ["PMID- 1\nTI  - T1\nFAU - Smith J\nAD  - a@b.com".toList,
      "PMID- 1\nTI  - T1\nFAU - Smith J\nAD  - a@b.com".toList]
    [⟨some ['1'], some ['T', '1'], "Smith J".toList, "a@b.com".toList⟩] (by decide)

/-! ### The forward affiliation scan (C2, C5, C10) -/

lemma fAD_of_fFAU {l : List Char} (hf : fFAU l = true) : fAD l = false := by
  rcases List.isPrefixOf_iff_prefix.mp hf with ⟨t, rfl⟩
  by_contra h
  have h2 : fAD (fauT ++ t) = true := by
    cases h3 : fAD (fauT ++ t) with
    | false => exact absurd h3 h
    | true => rfl
  rcases List.isPrefixOf_iff_prefix.mp h2 with ⟨s, hs⟩
  simp [adT, fauT] at hs

lemma findAff_skip :
    ∀ (pre : List (List Char)) (l : List Char) (post : List (List Char)),
      (∀ x ∈ pre, fAD x = false ∧ fFAU x = false) →
      findAff (pre ++ l :: post) = findAff (l :: post) := by
  intro pre
  induction pre with
  | nil => intro l post _; rfl
  | cons p ps ih =>
    intro l post hpre
    have hp := hpre p (List.mem_cons_self _ _)
    have hrest : ∀ x ∈ ps, fAD x = false ∧ fFAU x = false := fun x hx =>
      hpre x (List.mem_cons_of_mem _ hx)
    simp only [List.cons_append, findAff, hp.1, hp.2, if_false, Bool.false_eq_true]
    exact ih l post hrest

lemma findAff_ad {l : List Char} {post : List (List Char)} {v : List Char}
    (ha : fAD l = true) (hv : afterDashStrip l = some v) :
    findAff (l :: post) =
      some (some (joinSpace (v :: (post.takeWhile contLine).map pyStrip))) := by
  simp [findAff, ha, hv]

lemma findAff_fau {l : List Char} {post : List (List Char)}
    (hf : fFAU l = true) : findAff (l :: post) = some none := by
  simp [findAff, fAD_of_fFAU hf, hf]

/-- C2 (amended): the forward scan from an author line skips lines that are
neither `AD  -` nor `FAU -`; it collects the affiliation from the first
`AD  -` line even when Other lines stand in between, and abandons only on a
subsequent `FAU -` line (or end of record). -/
theorem C2_amended (pre : List (List Char)) (l : List Char) (post : List (List Char))
    (hpre : ∀ x ∈ pre, fAD x = false ∧ fFAU x = false) :
    (fAD l = true → findAff (pre ++ l :: post) =
      (afterDashStrip l).map
        (fun v => some (joinSpace (v :: (post.takeWhile contLine).map pyStrip)))) ∧
    (fFAU l = true → findAff (pre ++ l :: post) = some none) := by
  constructor
  · intro ha
    rcases fAD_dash ha with ⟨v, hv⟩
    rw [findAff_skip pre l post hpre, findAff_ad ha hv, hv]
    rfl
  · intro hf
    rw [findAff_skip pre l post hpre, findAff_fau hf]

/-- Counterexample to C2 as stated: an `LA  -` line (an Other line, neither
affiliation tag nor continuation nor author tag) between `FAU - A` and the
later `AD  -` line does not stop the scan — the affiliation is still
associated and the row is produced with its email. -/
theorem C2_counterexample :
    fAD "LA  - eng".toList = false ∧ fFAU "LA  - eng".toList = false ∧
      contLine "LA  - eng".toList = false ∧
      parseRows "PMID- 1\nFAU - A\nLA  - eng\nAD  - x a@b.com".toList =
        [⟨some ['1'], none, ['A'], "a@b.com".toList⟩] := by decide

/-- Witness for C2 (amended) with an Other line before the `AD  -` line. -/
theorem C2_witness :
    (fAD "AD  - x a@b.com".toList = true →
      findAff (["LA  - eng".toList] ++ "AD  - x a@b.com".toList :: []) =
        (afterDashStrip "AD  - x a@b.com".toList).map
          (fun v => some (joinSpace
            (v :: (([] : List (List Char)).takeWhile contLine).map pyStrip)))) ∧
    (fFAU "AD  - x a@b.com".toList = true →
      findAff (["LA  - eng".toList] ++ "AD  - x a@b.com".toList :: []) = some none) :=
  C2_amended ["LA  - eng".toList] "AD  - x a@b.com".toList [] (by decide)

lemma contLine_iff (x : List Char) : contLine x = true ↔ x.head? = some ' ' := by
  cases x with
  | nil =>
    constructor
    · intro h; exact absurd h (by decide)
    · intro h; cases h
  | cons c cs =>
    constructor
    · intro h
      have h2 : ((' ' == c) && (List.isPrefixOf ([] : List Char) cs)) = true := h
      have hc : ' ' = c := beq_iff_eq.mp ((Bool.and_eq_true _ _).mp h2).1
      rw [List.head?_cons, ← hc]
    · intro h
      rw [List.head?_cons] at h
      injection h with hc
      subst hc
      show ((' ' == ' ') && (List.isPrefixOf ([] : List Char) cs)) = true
      cases cs <;> rfl

/-- C5 (amended): a line is a continuation of an affiliation block exactly
when its first character is the space character `' '`; in particular a
tab-indented line is not a continuation.  The collected block is the tag
value followed by the trimmed space-initial lines, joined by spaces. -/
theorem C5_amended (x lab v : List Char) (post : List (List Char))
    (had : fAD lab = true) (hv : afterDashStrip lab = some v) :
    (contLine x = true ↔ x.head? = some ' ') ∧ contLine ('\t' :: x) = false ∧
    findAff (lab :: post) =
      some (some (joinSpace
        (v :: (post.takeWhile (fun y => y.head? == some ' ')).map pyStrip))) := by
  refine ⟨contLine_iff x, by simp [contLine, List.isPrefixOf], ?_⟩
  have hfun : (fun y : List Char => y.head? == some ' ') = contLine := by
    funext y
    exact Bool.eq_iff_iff.mpr (beq_iff_eq.trans (contLine_iff y).symm)
  rw [hfun]
  exact findAff_ad had hv

/-- Counterexample to C5 as stated: a tab-indented line is whitespace-initial
but is not treated as a continuation, so the email on it is lost and no row
is produced. -/
theorem C5_counterexample :
    contLine ('\t' :: "x@y.com".toList) = false ∧ pyIsSpace '\t' = true ∧
      parseRows "PMID- 1\nFAU - A\nAD  - Dept,\n\tx@y.com".toList = [] := by decide

/-- Witness for C5 (amended): one space-initial continuation collected, the
tab-initial line not collected. -/
theorem C5_witness :
    (contLine " q".toList = true ↔ (" q".toList).head? = some ' ') ∧
      contLine ('\t' :: " q".toList) = false ∧
      findAff ("AD  - Dept,".toList :: [" cont".toList, '\t' :: "no".toList]) =
        some (some (joinSpace
          ("Dept,".toList ::
            (([" cont".toList, '\t' :: "no".toList]).takeWhile
              (fun y => y.head? == some ' ')).map pyStrip))) :=
  C5_amended " q".toList "AD  - Dept,".toList "Dept,".toList
    [" cont".toList, '\t' :: "no".toList] (by decide) (by decide)

/-- C10: only the first affiliation block after an author line is examined;
when its text yields no email match the author contributes no row, even
when further `AD  -` lines (which may contain emails) follow in the same
record before the next author line. -/
theorem C10_first_block_only (pm ti : Option (List Char)) (fauLine : List Char)
    (pre : List (List Char)) (l : List Char) (post : List (List Char)) (a : List Char)
    (hf : fFAU fauLine = true)
    (hpre : ∀ x ∈ pre, fAD x = false ∧ fFAU x = false)
    (hl : fAD l = true)
    (ha : affTextOf l post = some a)
    (hno : searchEmail a = none) :
    authorPass pm ti (fauLine :: (pre ++ l :: post)) =
      authorPass pm ti (pre ++ l :: post) := by
  rcases fFAU_dash hf with ⟨v, hv⟩
  rcases fAD_dash hl with ⟨w, hw⟩
  have haw : a = joinSpace (w :: (post.takeWhile contLine).map pyStrip) := by
    rw [affTextOf, hw] at ha
    injection ha with ha2
    exact ha2.symm
  have hfind : findAff (pre ++ l :: post) = some (some a) := by
    rw [findAff_skip pre l post hpre, findAff_ad hl hw, haw]
  rcases Option.isSome_iff_exists.mp (authorPass_isSome pm ti (pre ++ l :: post))
    with ⟨tl, htl⟩
  have hemail : emailOf (some a) = [] := by simp [emailOf, hno]
  rw [htl]
  simp only [authorPass, hf, if_true, hv, hfind, htl, hemail]
  rfl

/-- Witness for C10: the first block has no email, a second `AD  -` line
with an email follows, and the author still produces no row. -/
theorem C10_witness :
    authorPass none none ("FAU - A".toList ::
        ([] ++ "AD  - nothing".toList :: ["AD  - x b@c.com".toList])) =
      authorPass none none ([] ++ "AD  - nothing".toList :: ["AD  - x b@c.com".toList]) :=
  C10_first_block_only none none "FAU - A".toList [] "AD  - nothing".toList
    ["AD  - x b@c.com".toList] "nothing".toList (by decide) (by decide) (by decide)
    (by decide) (by decide)

/-! ### The header pass: the last PMID / TI line wins (C1) -/

lemma headerPass_spec :
    ∀ (lines : List (List Char)) (pm0 ti0 : Option (List Char))
      (pm ti : Option (List Char)),
      headerPass lines pm0 ti0 = some (pm, ti) →
      pm = ((lines.filter fP).getLast?).elim pm0 afterDashStrip ∧
      ti = ((lines.filter (fun l => !fP l && fT l)).getLast?).elim ti0 afterDashStrip := by
  intro lines
  induction lines with
  | nil =>
    intro pm0 ti0 pm ti h
    injection h with h2
    injection h2 with hpm hti
    subst hpm
    subst hti
    exact ⟨rfl, rfl⟩
  | cons line rest ih =>
    intro pm0 ti0 pm ti h
    by_cases hp : fP line
    · rcases fP_dash hp with ⟨v, hv⟩
      simp only [headerPass, hp, if_true, hv] at h
      have hIH := ih (some v) ti0 pm ti h
      have hfilP : (line :: rest).filter fP = line :: rest.filter fP :=
        List.filter_cons_of_pos hp
      have hfilT : (line :: rest).filter (fun l => !fP l && fT l) =
          rest.filter (fun l => !fP l && fT l) :=
        List.filter_cons_of_neg (by simp [hp])
      refine ⟨?_, by rw [hfilT]; exact hIH.2⟩
      rw [hfilP]
      cases hfr : rest.filter fP with
      | nil =>
        rw [hfr] at hIH
        simpa [hv] using hIH.1
      | cons x xs =>
        rw [hfr] at hIH
        rw [List.getLast?_cons_cons]
        exact hIH.1
    · by_cases ht : fT line
      · rcases fT_dash ht with ⟨v, hv⟩
        simp only [headerPass, hp, ht, if_true, if_false, Bool.false_eq_true, hv] at h
        have hIH := ih pm0 (some v) pm ti h
        have hfilP : (line :: rest).filter fP = rest.filter fP :=
          List.filter_cons_of_neg (by simp [hp])
        have hfilT : (line :: rest).filter (fun l => !fP l && fT l) =
            line :: rest.filter (fun l => !fP l && fT l) :=
          List.filter_cons_of_pos (by simp [hp, ht])
        refine ⟨by rw [hfilP]; exact hIH.1, ?_⟩
        rw [hfilT]
        cases hfr : rest.filter (fun l => !fP l && fT l) with
        | nil =>
          rw [hfr] at hIH
          simpa [hv] using hIH.2
        | cons x xs =>
          rw [hfr] at hIH
          rw [List.getLast?_cons_cons]
          exact hIH.2
      · simp only [headerPass, hp, ht, if_false, Bool.false_eq_true] at h
        have hIH := ih pm0 ti0 pm ti h
        have hfilP : (line :: rest).filter fP = rest.filter fP :=
          List.filter_cons_of_neg (by simp [hp])
        have hfilT : (line :: rest).filter (fun l => !fP l && fT l) =
            rest.filter (fun l => !fP l && fT l) :=
          List.filter_cons_of_neg (by simp [hp, ht])
        exact ⟨by rw [hfilP]; exact hIH.1, by rw [hfilT]; exact hIH.2⟩

lemma authorPass_header (pm ti : Option (List Char)) :
    ∀ (lines : List (List Char)) (rows : List Row),
      authorPass pm ti lines = some rows →
      ∀ r ∈ rows, r.pmid = pm ∧ r.title = ti := by
  intro lines
  induction lines with
  | nil =>
    intro rows h r hr
    simp [authorPass] at h
    subst h
    cases hr
  | cons line rest ih =>
    intro rows h r hr
    by_cases hf : fFAU line
    · rcases fFAU_dash hf with ⟨v, hv⟩
      rcases Option.isSome_iff_exists.mp (findAff_isSome rest) with ⟨aff, haff⟩
      rcases Option.isSome_iff_exists.mp (authorPass_isSome pm ti rest) with ⟨tl, htl⟩
      simp only [authorPass, hf, if_true, hv, haff, htl, Option.some.injEq] at h
      subst h
      by_cases hemp : (emailOf aff).isEmpty = true
      · rw [if_pos hemp] at hr
        exact ih tl htl r hr
      · rw [if_neg hemp] at hr
        rcases List.mem_cons.mp hr with rfl | hr2
        · exact ⟨rfl, rfl⟩
        · exact ih tl htl r hr2
    · simp only [authorPass, hf, if_false] at h
      exact ih rows h r hr

/-- C1 (amended): when a record contains several `PMID-` (or `TI  -`) lines,
the identifier (or title) of every row produced from it comes from the LAST
such line in scan order — the header pass reassigns on every match, so the
last occurrence wins, not the first. -/
theorem C1_amended (chunk : List Char) (rows : List Row)
    (h : parseChunk chunk = some rows) (r : Row) (hr : r ∈ rows) :
    r.pmid = (((pySplitlines chunk).filter fP).getLast?).elim none afterDashStrip ∧
    r.title = (((pySplitlines chunk).filter
      (fun l => !fP l && fT l)).getLast?).elim none afterDashStrip := by
  rcases headerPass_isSome (pySplitlines chunk) none none with ⟨⟨pm, ti⟩, hh⟩
  rw [parseChunk, hh] at h
  have hspec := headerPass_spec (pySplitlines chunk) none none pm ti hh
  have hrow := authorPass_header pm ti (pySplitlines chunk) rows h r hr
  rw [hrow.1, hrow.2, hspec.1, hspec.2]
  exact ⟨rfl, rfl⟩

/-- Counterexample to C1 as stated: a record whose lines contain two
`PMID-` lines (values `1` then `2`) and two `TI  -` lines (values `T1` then
`T2`) produces its row from the last of each, not the first. -/
theorem C1_counterexample :
    parseRows "PMID- 1\nPMID-2\nTI  - T1\nTI  - T2\nFAU - A\nAD  - a@b.com".toList =
        [⟨some ['2'], some ['T', '2'], ['A'], "a@b.com".toList⟩] ∧
      afterDashStrip "PMID- 1".toList = some ['1'] ∧
      afterDashStrip "TI  - T1".toList = some ['T', '1'] ∧
      (['2'] : List Char) ≠ ['1'] ∧ (['T', '2'] : List Char) ≠ ['T', '1'] := by decide

/-- Witness for C1 (amended) at the two-PMID / two-TI record. -/
theorem C1_witness :
    (⟨some ['2'], some ['T', '2'], ['A'], "a@b.com".toList⟩ : Row).pmid =
      (((pySplitlines
        "PMID- 1\nPMID-2\nTI  - T1\nTI  - T2\nFAU - A\nAD  - a@b.com".toList).filter
          fP).getLast?).elim none afterDashStrip ∧
    (⟨some ['2'], some ['T', '2'], ['A'], "a@b.com".toList⟩ : Row).title =
      (((pySplitlines
        "PMID- 1\nPMID-2\nTI  - T1\nTI  - T2\nFAU - A\nAD  - a@b.com".toList).filter
          (fun l => !fP l && fT l)).getLast?).elim none afterDashStrip :=
  C1_amended "PMID- 1\nPMID-2\nTI  - T1\nTI  - T2\nFAU - A\nAD  - a@b.com".toList
    [⟨some ['2'], some ['T', '2'], ['A'], "a@b.com".toList⟩] (by decide)
    ⟨some ['2'], some ['T', '2'], ['A'], "a@b.com".toList⟩ (by decide)

/-! ### The record splitter is line-anchored (C8) -/

lemma isSplitPoint_not_nl {c : Char} (h : c ≠ '\n') (cs : List Char) :
    isSplitPoint (c :: cs) = false := by
  simp [isSplitPoint, h]

lemma isSplitPoint_head {c : Char} {cs : List Char}
    (h : isSplitPoint (c :: cs) = true) :
    c = '\n' ∧ pmidT.isPrefixOf cs = true ∧ pyIsSpace (cs.getD 5 'x') = true := by
  simp only [isSplitPoint, Bool.and_eq_true, decide_eq_true_eq] at h
  exact ⟨h.1.1, h.1.2, h.2⟩

lemma isSplitPoint_append {x y : List Char} (h : isSplitPoint x = true) :
    isSplitPoint (x ++ y) = true := by
  cases x with
  | nil => cases h
  | cons c rest =>
    rcases isSplitPoint_head h with ⟨rfl, hpre, hsp⟩
    have hlen : 5 < rest.length := by
      by_contra hcon
      rw [List.getD_eq_getElem?_getD, List.getElem?_eq_none (by omega)] at hsp
      exact absurd hsp (by decide)
    rcases List.isPrefixOf_iff_prefix.mp hpre with ⟨t, rfl⟩
    have hpre2 : pmidT.isPrefixOf (pmidT ++ t ++ y) = true := by
      rw [List.append_assoc]
      exact List.isPrefixOf_iff_prefix.mpr ⟨t ++ y, rfl⟩
    have hget : ((pmidT ++ t ++ y).getD 5 'x') = ((pmidT ++ t).getD 5 'x') := by
      rw [List.getD_eq_getElem?_getD, List.getD_eq_getElem?_getD,
        List.getElem?_append_left hlen]
    show isSplitPoint ('\n' :: (pmidT ++ t ++ y)) = true
    simp only [isSplitPoint, hpre2, hget, hsp, Bool.and_true, Bool.true_and]
    rfl

lemma splitPMIDAux_ne_nil : ∀ (cs acc : List Char), splitPMIDAux cs acc ≠ [] := by
  intro cs
  induction cs with
  | nil => intro acc h; cases h
  | cons c cs ih =>
    intro acc
    by_cases hsp : isSplitPoint (c :: cs) = true
    · rw [splitPMIDAux, if_pos hsp]
      exact List.cons_ne_nil _ _
    · rw [splitPMIDAux, if_neg hsp]
      exact ih (c :: acc)

lemma splitPMIDAux_glue : ∀ (cs acc : List Char),
    glueNL (splitPMIDAux cs acc) = acc.reverse ++ cs := by
  intro cs
  induction cs with
  | nil => intro acc; simp [splitPMIDAux, glueNL]
  | cons c cs ih =>
    intro acc
    by_cases hsp : isSplitPoint (c :: cs) = true
    · rw [splitPMIDAux, if_pos hsp]
      have hnl := (isSplitPoint_head hsp).1
      cases haux : splitPMIDAux cs [] with
      | nil => exact absurd haux (splitPMIDAux_ne_nil cs [])
      | cons b bs =>
        have hglue : glueNL (acc.reverse :: b :: bs) =
            acc.reverse ++ '\n' :: glueNL (b :: bs) := rfl
        rw [hglue, ← haux, ih []]
        simp [hnl]
    · rw [splitPMIDAux, if_neg hsp, ih (c :: acc)]
      simp

lemma splitPMIDAux_no_split : ∀ (cs acc : List Char),
    (∀ i, i < acc.length → isSplitPoint (acc.reverse.drop i ++ cs) = false) →
    ∀ chunk ∈ splitPMIDAux cs acc, ∀ j, isSplitPoint (chunk.drop j) = false := by
  intro cs
  induction cs with
  | nil =>
    intro acc H chunk hm j
    rcases List.mem_singleton.mp hm with rfl
    by_cases hj : j < acc.length
    · have := H j hj
      rwa [List.append_nil] at this
    · rw [List.drop_eq_nil_of_le (by rw [List.length_reverse]; omega)]
      rfl
  | cons c cs ih =>
    intro acc H chunk hm j
    by_cases hsp : isSplitPoint (c :: cs) = true
    · rw [splitPMIDAux, if_pos hsp] at hm
      rcases List.mem_cons.mp hm with rfl | hm2
      · by_cases hj : j < acc.length
        · cases hb : isSplitPoint (acc.reverse.drop j) with
          | false => rfl
          | true =>
            have := isSplitPoint_append (y := c :: cs) hb
            rw [H j hj] at this
            cases this
        · rw [List.drop_eq_nil_of_le (by rw [List.length_reverse]; omega)]
          rfl
      · exact ih [] (by intro i hi; cases hi) chunk hm2 j
    · rw [splitPMIDAux, if_neg hsp] at hm
      refine ih (c :: acc) ?_ chunk hm j
      intro i hi
      rcases Nat.lt_succ_iff_lt_or_eq.mp hi with hi2 | hi2
      · have heq : (c :: acc).reverse.drop i ++ cs =
            acc.reverse.drop i ++ (c :: cs) := by
          rw [List.reverse_cons,
            List.drop_append_of_le_length (by rw [List.length_reverse]; omega),
            List.append_assoc]
          rfl
        rw [heq]
        exact H i hi2
      · subst hi2
        have heq : (c :: acc).reverse.drop acc.length ++ cs = c :: cs := by
          rw [List.reverse_cons, ← List.length_reverse acc, List.drop_left]
          rfl
        rw [heq]
        exact Bool.not_eq_true _ ▸ hsp

lemma splitPMIDAux_cons_ne {c : Char} (h : c ≠ '\n') (xs acc : List Char) :
    splitPMIDAux (c :: xs) acc = splitPMIDAux xs (c :: acc) := by
  rw [splitPMIDAux, if_neg (by simp [isSplitPoint_not_nl h])]

lemma splitPMIDAux_pmid_unfold (rest acc : List Char) :
    splitPMIDAux (pmidT ++ rest) acc =
      splitPMIDAux rest ('-' :: 'D' :: 'I' :: 'M' :: 'P' :: acc) := by
  show splitPMIDAux ('P' :: 'M' :: 'I' :: 'D' :: '-' :: rest) acc = _
  rw [splitPMIDAux_cons_ne (by decide), splitPMIDAux_cons_ne (by decide),
    splitPMIDAux_cons_ne (by decide), splitPMIDAux_cons_ne (by decide),
    splitPMIDAux_cons_ne (by decide)]

lemma isPrefixOf_extend {p l x : List Char} (h : p.isPrefixOf l = true) :
    p.isPrefixOf (l ++ x) = true := by
  rcases List.isPrefixOf_iff_prefix.mp h with ⟨t, rfl⟩
  rw [List.append_assoc]
  exact List.isPrefixOf_iff_prefix.mpr ⟨t ++ x, rfl⟩

lemma splitPMIDAux_all_pmid : ∀ (n : Nat) (cs acc : List Char), cs.length ≤ n →
    pmidT.isPrefixOf acc.reverse = true →
    ∀ chunk ∈ splitPMIDAux cs acc, pmidT.isPrefixOf chunk = true := by
  intro n
  induction n with
  | zero =>
    intro cs acc hn hacc chunk hm
    have hnil : cs = [] := List.length_eq_zero.mp (Nat.le_zero.mp hn)
    subst hnil
    rcases List.mem_singleton.mp hm with rfl
    exact hacc
  | succ n ih =>
    intro cs acc hn hacc chunk hm
    cases cs with
    | nil =>
      rcases List.mem_singleton.mp hm with rfl
      exact hacc
    | cons c cs' =>
      by_cases hsp : isSplitPoint (c :: cs') = true
      · rw [splitPMIDAux, if_pos hsp] at hm
        rcases List.mem_cons.mp hm with rfl | hm2
        · exact hacc
        · rcases isSplitPoint_head hsp with ⟨-, hpre, -⟩
          rcases List.isPrefixOf_iff_prefix.mp hpre with ⟨r5, rfl⟩
          rw [splitPMIDAux_pmid_unfold r5 []] at hm2
          refine ih r5 ('-' :: 'D' :: 'I' :: 'M' :: 'P' :: []) ?_ (by decide) chunk hm2
          have h5 : (c :: (pmidT ++ r5)).length ≤ n + 1 := hn
          simp [pmidT] at h5
          omega
      · rw [splitPMIDAux, if_neg hsp] at hm
        refine ih cs' (c :: acc) ?_ ?_ chunk hm
        · have h1 : (c :: cs').length ≤ n + 1 := hn
          simp at h1
          omega
        · rw [List.reverse_cons]
          exact isPrefixOf_extend hacc

lemma splitPMIDAux_tail_pmid : ∀ (cs acc : List Char),
    ∀ chunk ∈ (splitPMIDAux cs acc).tail, pmidT.isPrefixOf chunk = true := by
  intro cs
  induction cs with
  | nil =>
    intro acc chunk hm
    simp [splitPMIDAux] at hm
  | cons c cs' ih =>
    intro acc chunk hm
    by_cases hsp : isSplitPoint (c :: cs') = true
    · rw [splitPMIDAux, if_pos hsp] at hm
      rcases isSplitPoint_head hsp with ⟨-, hpre, -⟩
      rcases List.isPrefixOf_iff_prefix.mp hpre with ⟨r5, rfl⟩
      rw [List.tail_cons, splitPMIDAux_pmid_unfold r5 []] at hm
      exact splitPMIDAux_all_pmid r5.length r5 _ le_rfl (by decide) chunk hm
    · rw [splitPMIDAux, if_neg hsp] at hm
      exact ih (c :: acc) chunk hm

/-- C8: record splitting is line-anchored.  Rejoining the chunks with a
newline restores the stripped input (so every cut sits at a consumed
newline), every chunk after the first begins with the `PMID-` marker, and
no split point survives inside any chunk (the split is exhaustive); in
particular a `PMID-` literal in the middle of a line never begins a new
record. -/
theorem C8_line_anchored (s : List Char) :
    glueNL (splitPMID (pyStrip s)) = pyStrip s ∧
    (∀ chunk ∈ (splitPMID (pyStrip s)).tail, pmidT.isPrefixOf chunk = true) ∧
    (∀ chunk ∈ splitPMID (pyStrip s), ∀ j, isSplitPoint (chunk.drop j) = false) := by
  refine ⟨?_, splitPMIDAux_tail_pmid (pyStrip s) [], ?_⟩
  · simpa using splitPMIDAux_glue (pyStrip s) []
  · exact splitPMIDAux_no_split (pyStrip s) [] (by intro i hi; cases hi)

/-- Witness for C8: an input with a mid-line `PMID- ` literal; the text
reassembles, the second chunk starts with the marker, and the suffix of the
first chunk that begins at the mid-line literal is not a split point. -/
theorem C8_witness :
    glueNL (splitPMID (pyStrip "PMID- 1\nx PMID- 2\nPMID- 3".toList)) =
        pyStrip "PMID- 1\nx PMID- 2\nPMID- 3".toList ∧
      pmidT.isPrefixOf "PMID- 3".toList = true ∧
      isSplitPoint (("PMID- 1\nx PMID- 2".toList).drop 10) = false :=
  ⟨(C8_line_anchored "PMID- 1\nx PMID- 2\nPMID- 3".toList).1,
    (C8_line_anchored "PMID- 1\nx PMID- 2\nPMID- 3".toList).2.1
      "PMID- 3".toList (by decide),
    (C8_line_anchored "PMID- 1\nx PMID- 2\nPMID- 3".toList).2.2
      "PMID- 1\nx PMID- 2".toList (by decide) 10⟩

/-! ### The email locator returns the leftmost match (C6) -/

lemma takeWhile_append_stop {p : Char → Bool} :
    ∀ (l : List Char) (a : Char) (r : List Char),
      (∀ c ∈ l, p c = true) → p a = false →
      (l ++ a :: r).takeWhile p = l := by
  intro l
  induction l with
  | nil => intro a r _ ha; simp [List.takeWhile_cons, ha]
  | cons x xs ih =>
    intro a r hall ha
    have hx : p x = true := hall x (List.mem_cons_self _ _)
    rw [List.cons_append, List.takeWhile_cons, if_pos hx,
      ih a r (fun c hc => hall c (List.mem_cons_of_mem _ hc)) ha]

lemma dropWhile_append_stop {p : Char → Bool} :
    ∀ (l : List Char) (a : Char) (r : List Char),
      (∀ c ∈ l, p c = true) → p a = false →
      (l ++ a :: r).dropWhile p = a :: r := by
  intro l
  induction l with
  | nil => intro a r _ ha; simp [List.dropWhile_cons, ha]
  | cons x xs ih =>
    intro a r hall ha
    have hx : p x = true := hall x (List.mem_cons_self _ _)
    rw [List.cons_append, List.dropWhile_cons, if_pos hx,
      ih a r (fun c hc => hall c (List.mem_cons_of_mem _ hc)) ha]

lemma takeWhile_append_all {p : Char → Bool} :
    ∀ (t s : List Char), (∀ c ∈ t, p c = true) →
      (t ++ s).takeWhile p = t ++ s.takeWhile p := by
  intro t
  induction t with
  | nil => intro s _; rfl
  | cons x xs ih =>
    intro s hall
    have hx : p x = true := hall x (List.mem_cons_self _ _)
    rw [List.cons_append, List.takeWhile_cons, if_pos hx,
      ih s (fun c hc => hall c (List.mem_cons_of_mem _ hc))]
    rfl

lemma take_all_of_takeWhile {p : Char → Bool} {cs : List Char} {q : Nat}
    (hq : q ≤ (cs.takeWhile p).length) : ∀ c ∈ cs.take q, p c = true := by
  intro c hc
  have hcs : cs.take q = (cs.takeWhile p).take q := by
    conv_lhs => rw [← List.takeWhile_append_dropWhile p cs]
    rw [List.take_append_of_le_length hq]
  rw [hcs] at hc
  exact List.mem_takeWhile_imp (List.take_subset q _ hc)

lemma matchDotTld_some {x : List Char} {mt : Nat} (h : matchDotTld x = some mt) :
    ∃ rst, x = '.' :: rst ∧ mt = 1 + (rst.takeWhile Char.isAlpha).length ∧
      2 ≤ (rst.takeWhile Char.isAlpha).length := by
  cases x with
  | nil => cases h
  | cons c rst =>
    rw [matchDotTld] at h
    by_cases hc : c = '.'
    · rw [if_pos hc] at h
      by_cases h2 : 2 ≤ (rst.takeWhile Char.isAlpha).length
      · rw [if_pos h2] at h
        injection h with hmt
        exact ⟨rst, by rw [hc], hmt.symm, h2⟩
      · rw [if_neg h2] at h; cases h
    · rw [if_neg hc] at h; cases h

lemma matchDotTld_of {rst : List Char} (h2 : 2 ≤ (rst.takeWhile Char.isAlpha).length) :
    matchDotTld ('.' :: rst) = some (1 + (rst.takeWhile Char.isAlpha).length) := by
  rw [matchDotTld, if_pos rfl, if_pos h2]

lemma tryDomain_sound :
    ∀ (P : Nat) (cs : List Char) (m : Nat), tryDomain cs P = some m →
      ∃ q mt, 1 ≤ q ∧ q ≤ P ∧ matchDotTld (cs.drop q) = some mt ∧ m = q + mt := by
  intro P
  induction P with
  | zero => intro cs m h; cases h
  | succ P ih =>
    intro cs m h
    rw [tryDomain] at h
    cases hdt : matchDotTld (cs.drop (P + 1)) with
    | some mt =>
      rw [hdt] at h
      injection h with h2
      exact ⟨P + 1, mt, by omega, le_rfl, hdt, by omega⟩
    | none =>
      rw [hdt] at h
      rcases ih cs m h with ⟨q, mt, h1, h2, h3, h4⟩
      exact ⟨q, mt, h1, Nat.le_succ_of_le h2, h3, h4⟩

lemma tryDomain_complete :
    ∀ (P q : Nat) (cs : List Char), 1 ≤ q → q ≤ P →
      (matchDotTld (cs.drop q)).isSome = true → (tryDomain cs P).isSome = true := by
  intro P
  induction P with
  | zero => intro q cs h1 h2 _; omega
  | succ P ih =>
    intro q cs h1 h2 h3
    rw [tryDomain]
    cases hdt : matchDotTld (cs.drop (P + 1)) with
    | some mt => rfl
    | none =>
      have hq : q ≤ P := by
        by_cases he : q = P + 1
        · rw [he, hdt] at h3; cases h3
        · omega
      exact ih q cs h1 hq h3

lemma matchEmailAt_some : ∀ {cs e : List Char}, matchEmailAt cs = some e →
    isEmailShape e ∧ e <+: cs := by
  intro cs e h
  rw [matchEmailAt] at h
  by_cases hemp : (cs.takeWhile isLocalChar).isEmpty = true
  · rw [if_pos hemp] at h; cases h
  · rw [if_neg hemp] at h
    cases hdw : cs.dropWhile isLocalChar with
    | nil => rw [hdw] at h; cases h
    | cons a rest2 =>
      rw [hdw] at h
      have h2 : (if a = '@' then
          (match matchDomainLen rest2 with
            | some m => some (List.takeWhile isLocalChar cs ++ a :: List.take m rest2)
            | none => none)
          else none) = some e := h
      clear h
      by_cases hat : a = '@'
      · rw [if_pos hat] at h2
        subst hat
        cases hdom : matchDomainLen rest2 with
        | none => rw [hdom] at h2; cases h2
        | some m =>
          rw [hdom] at h2
          injection h2 with he
          subst he
          rw [matchDomainLen] at hdom
          rcases tryDomain_sound _ rest2 m hdom with ⟨q, mt, hq1, hq2, hdt, hm⟩
          rcases matchDotTld_some hdt with ⟨rst, hrst, hmt, htlen⟩
          have hqlen : q ≤ rest2.length :=
            le_trans hq2 (List.IsPrefix.length_le (List.takeWhile_prefix _))
          have hd_dom : ∀ c ∈ rest2.take q, isDomChar c = true :=
            take_all_of_takeWhile hq2
          have hd_len : (rest2.take q).length = q := by
            rw [List.length_take]
            omega
          have hd_ne : rest2.take q ≠ [] := by
            intro hn
            rw [hn] at hd_len
            simp at hd_len
            omega
          have hrtake : rst.take (rst.takeWhile Char.isAlpha).length =
              rst.takeWhile Char.isAlpha :=
            (List.prefix_iff_eq_take.mp (List.takeWhile_prefix _)).symm
          have htake : rest2.take m =
              rest2.take q ++ '.' :: rst.takeWhile Char.isAlpha := by
            have hm2 : m = q + (1 + (rst.takeWhile Char.isAlpha).length) := by omega
            rw [hm2, List.take_add, hrst]
            congr 1
            rw [Nat.add_comm, List.take_succ_cons, hrtake]
          constructor
          · refine ⟨cs.takeWhile isLocalChar, rest2.take q,
              rst.takeWhile Char.isAlpha, ?_, ?_, ?_, hd_ne, hd_dom, htlen, ?_⟩
            · rw [htake]
            · intro hn
              rw [hn] at hemp
              exact hemp rfl
            · intro c hc
              exact List.mem_takeWhile_imp hc
            · intro c hc
              exact List.mem_takeWhile_imp hc
          · refine ⟨rest2.drop m, ?_⟩
            rw [List.append_assoc, List.cons_append, List.take_append_drop]
            conv_rhs => rw [← List.takeWhile_append_dropWhile isLocalChar cs]
            rw [hdw]
      · rw [if_neg hat] at h2; cases h2

lemma matchEmailAt_complete : ∀ {cs w : List Char}, w <+: cs → isEmailShape w →
    (matchEmailAt cs).isSome = true := by
  intro cs w hpre hsh
  rcases hsh with ⟨l, d, t, rfl, hlne, hlloc, hdne, hddom, htlen, htal⟩
  rcases hpre with ⟨s, rfl⟩
  have hl : l.isEmpty = false := by
    cases l with
    | nil => exact absurd rfl hlne
    | cons x xs => rfl
  have hcs : (l ++ '@' :: (d ++ '.' :: t)) ++ s = l ++ '@' :: (d ++ '.' :: (t ++ s)) := by
    simp [List.append_assoc]
  rw [hcs]
  have htw : (l ++ '@' :: (d ++ '.' :: (t ++ s))).takeWhile isLocalChar = l :=
    takeWhile_append_stop l '@' _ hlloc (by decide)
  have hdw : (l ++ '@' :: (d ++ '.' :: (t ++ s))).dropWhile isLocalChar =
      '@' :: (d ++ '.' :: (t ++ s)) :=
    dropWhile_append_stop l '@' _ hlloc (by decide)
  have hta : (t ++ s).takeWhile Char.isAlpha = t ++ s.takeWhile Char.isAlpha :=
    takeWhile_append_all t s htal
  have hlen2 : 2 ≤ ((t ++ s).takeWhile Char.isAlpha).length := by
    rw [hta, List.length_append]
    omega
  have hdot : (matchDotTld ((d ++ '.' :: (t ++ s)).drop d.length)).isSome = true := by
    rw [List.drop_left, matchDotTld_of hlen2]
    rfl
  have hP : d.length ≤ ((d ++ '.' :: (t ++ s)).takeWhile isDomChar).length := by
    have hda : (d ++ '.' :: (t ++ s)).takeWhile isDomChar =
        d ++ ('.' :: (t ++ s)).takeWhile isDomChar := takeWhile_append_all d _ hddom
    rw [hda, List.length_append]
    omega
  have hdom : (matchDomainLen (d ++ '.' :: (t ++ s))).isSome = true := by
    rw [matchDomainLen]
    exact tryDomain_complete _ d.length _ (List.length_pos.mpr hdne) hP hdot
  rcases Option.isSome_iff_exists.mp hdom with ⟨m, hm⟩
  rw [matchEmailAt, htw, hdw]
  simp [hl, hm]

lemma searchEmail_none : ∀ (text : List Char), searchEmail text = none →
    ∀ (s : Nat) (w : List Char), isEmailShape w → ¬ (w <+: text.drop s) := by
  intro text
  induction text with
  | nil =>
    intro _ s w hsh hpre
    rw [List.drop_nil] at hpre
    rcases hpre with ⟨u, hu⟩
    rcases hsh with ⟨l, d, t, rfl, -, -⟩
    rcases List.append_eq_nil.mp hu with ⟨h1, -⟩
    rcases List.append_eq_nil.mp h1 with ⟨-, h3⟩
    cases h3
  | cons c cs ih =>
    intro h s w hsh hpre
    rw [searchEmail] at h
    cases hma : matchEmailAt (c :: cs) with
    | some e => rw [hma] at h; cases h
    | none =>
      rw [hma] at h
      cases s with
      | zero =>
        rw [List.drop_zero] at hpre
        have hc := matchEmailAt_complete hpre hsh
        rw [hma] at hc
        cases hc
      | succ s' =>
        rw [List.drop_succ_cons] at hpre
        exact ih h s' w hsh hpre

lemma searchEmail_some : ∀ (text e : List Char), searchEmail text = some e →
    isEmailShape e ∧ ∃ s, (e <+: text.drop s) ∧
      ∀ s', s' < s → ∀ w, isEmailShape w → ¬ (w <+: text.drop s') := by
  intro text
  induction text with
  | nil => intro e h; cases h
  | cons c cs ih =>
    intro e h
    rw [searchEmail] at h
    cases hma : matchEmailAt (c :: cs) with
    | some e' =>
      rw [hma] at h
      injection h with he
      subst he
      rcases matchEmailAt_some hma with ⟨hsh, hpre⟩
      refine ⟨hsh, 0, by rwa [List.drop_zero], ?_⟩
      intro s' hs'
      exact absurd hs' (Nat.not_lt_zero s')
    | none =>
      rw [hma] at h
      rcases ih e h with ⟨hsh, s, hpre, hmin⟩
      refine ⟨hsh, s + 1, by rwa [List.drop_succ_cons], ?_⟩
      intro s' hs' w hw hcon
      cases s' with
      | zero =>
        rw [List.drop_zero] at hcon
        have hc := matchEmailAt_complete hcon hw
        rw [hma] at hc
        cases hc
      | succ s'' =>
        rw [List.drop_succ_cons] at hcon
        exact hmin s'' (by omega) w hw hcon

/-- C6: the email locator is sound and leftmost.  A returned match has the
regex's shape (local part over `[A-Za-z0-9._%+-]`, `@`, domain over
`[A-Za-z0-9.-]`, a dot, and at least two letters) and occurs at a position
before which no shape-matching substring starts; when it returns no match,
no substring of the text has the shape, so in particular when two
email-like substrings occur only the first (leftmost) one is returned. -/
theorem C6_email_locator (text : List Char) :
    (∀ e, searchEmail text = some e →
      isEmailShape e ∧ ∃ s, (e <+: text.drop s) ∧
        ∀ s', s' < s → ∀ w, isEmailShape w → ¬ (w <+: text.drop s')) ∧
    (searchEmail text = none →
      ∀ s w, isEmailShape w → ¬ (w <+: text.drop s)) :=
  ⟨fun e he => searchEmail_some text e he,
    fun hn s w hw => searchEmail_none text hn s w hw⟩

/-- Witness for C6 at a text holding two email-like substrings: the first
one is returned, with the leftmost guarantee instantiated. -/
theorem C6_witness :
    isEmailShape "a@b.com".toList ∧
      ∃ s, ("a@b.com".toList <+: ("a@b.com x c@d.net".toList).drop s) ∧
        ∀ s', s' < s → ∀ w, isEmailShape w →
          ¬ (w <+: ("a@b.com x c@d.net".toList).drop s') :=
  (C6_email_locator "a@b.com x c@d.net".toList).1 "a@b.com".toList (by decide)
